import Mathlib

/-!
# Verification of the ASCII photo mask generator core

Shallow embedding of `src/ascii_art.py`: the grid planning of
`ASCIIPhotoMask.generate`, the cell geometry and glyph stamping of
`ASCIIPhotoMask._draw_character`, `ASCIIConverter.brightness_to_char`,
`ImageProcessor.get_average_brightness`, `FontManager.load_fonts`,
`Config.__post_init__` and the final `Image.composite` call.

Python float arithmetic is embedded as exact rational arithmetic (`ℚ`);
machine pixels are naturals bounded by 255.
-/

namespace AsciiArt

/-- Python `int()` on a rational: truncation toward zero. -/
def intTrunc (q : ℚ) : ℤ := if 0 ≤ q then ⌊q⌋ else ⌈q⌉

theorem intTrunc_of_nonneg {q : ℚ} (h : 0 ≤ q) : intTrunc q = ⌊q⌋ := by
  simp [intTrunc, h]

/-! ## Grid planning (`ASCIIPhotoMask.generate`, lines 245-252)

```python
cell_width = img_width / self.config.char_width
char_height = int((img_height / cell_width))
cell_height = img_height / char_height
```
-/

/-- `cell_width = img_width / char_width` (float division, embedded exactly). -/
def cellWidth (imgWidth charWidth : ℕ) : ℚ := (imgWidth : ℚ) / (charWidth : ℚ)

/-- `char_height = int(img_height / cell_width)`. -/
def charHeight (imgWidth imgHeight charWidth : ℕ) : ℤ :=
  intTrunc ((imgHeight : ℚ) / cellWidth imgWidth charWidth)

/-- `cell_height = img_height / char_height`. -/
def cellHeight (imgWidth imgHeight charWidth : ℕ) : ℚ :=
  (imgHeight : ℚ) / (charHeight imgWidth imgHeight charWidth : ℚ)

/-! ## Brightness to character (`ASCIIConverter.brightness_to_char`, lines 205-217)

```python
index = int((brightness / 255) * (len(self.char_set) - 1))
index = max(0, min(index, len(self.char_set) - 1))  # Clamp
return self.char_set[index]
```
-/

/-- The clamped index computed by `brightness_to_char` for a ramp of length `n`. -/
def brightnessIndex (n : ℕ) (brightness : ℚ) : ℤ :=
  let index := intTrunc ((brightness / 255) * ((n : ℤ) - 1))
  max 0 (min index ((n : ℤ) - 1))

/-- `brightness_to_char`: index the ramp at the clamped index.  Out-of-range
indexing (possible only for an empty ramp) is `none`, reflecting Python's
`IndexError`. -/
def brightnessToChar (charSet : List Char) (brightness : ℚ) : Option Char :=
  charSet[(brightnessIndex charSet.length brightness).toNat]?

/-! ## Images and `ImageProcessor.get_average_brightness` (lines 174-190)

```python
region = img.crop((x, y, x + width, y + height))
grayscale = region.convert('L')
pixels = list(grayscale.getdata())
return sum(pixels) / len(pixels) if pixels else 0
```
-/

/-- An RGB image: dimensions and a pixel function (channels are bytes,
bounded by 255 where a claim needs it). -/
structure Img where
  width : ℕ
  height : ℕ
  pix : ℕ → ℕ → ℕ × ℕ × ℕ

/-- Modelled from PIL's documented `convert('L')` (ITU-R 601-2):
`L = (R*19595 + G*38470 + B*7471 + 2^15) >> 16`, the fixed-point form of
`R*299/1000 + G*587/1000 + B*114/1000`. -/
def grayPix (r g b : ℕ) : ℕ := (r * 19595 + g * 38470 + b * 7471 + 32768) / 65536

/-- Grayscale value seen at integer coordinates after `img.crop`: PIL pads
out-of-bounds area with black, whose grayscale value is 0. -/
def cropGray (img : Img) (x y : ℤ) : ℕ :=
  if 0 ≤ x ∧ x < img.width ∧ 0 ≤ y ∧ y < img.height then
    grayPix (img.pix x.toNat y.toNat).1 (img.pix x.toNat y.toNat).2.1
      (img.pix x.toNat y.toNat).2.2
  else 0

/-- `sum(pixels)` over the cropped `width × height` region. -/
def regionSum (img : Img) (x y : ℤ) (w h : ℕ) : ℕ :=
  ∑ j ∈ Finset.range h, ∑ i ∈ Finset.range w, cropGray img (x + i) (y + j)

/-- `ImageProcessor.get_average_brightness`: mean of the cropped grayscale
region, or 0 for an empty region (`if pixels else 0`). -/
def getAverageBrightness (img : Img) (x y : ℤ) (w h : ℕ) : ℚ :=
  if 0 < w * h then (regionSum img x y w h : ℚ) / ((w : ℚ) * (h : ℚ)) else 0

/-! ## Cell geometry (`ASCIIPhotoMask._draw_character`, lines 317-327)

```python
x = int(col * cell_width)
y = int(row * cell_height)
brightness = ImageProcessor.get_average_brightness(
    source_img, x, y,
    min(int(cell_width), img_width - x),
    min(int(cell_height), img_height - y))
```
-/

/-- `x = int(col * cell_width)`. -/
def cellX (cw : ℚ) (col : ℕ) : ℤ := intTrunc ((col : ℚ) * cw)

/-- `y = int(row * cell_height)`. -/
def cellY (chh : ℚ) (row : ℕ) : ℤ := intTrunc ((row : ℚ) * chh)

/-- Sampled region width `min(int(cell_width), img_width - x)`. -/
def regionW (cw : ℚ) (imgWidth : ℕ) (col : ℕ) : ℤ :=
  min (intTrunc cw) ((imgWidth : ℤ) - cellX cw col)

/-- Sampled region height `min(int(cell_height), img_height - y)`. -/
def regionH (chh : ℚ) (imgHeight : ℕ) (row : ℕ) : ℤ :=
  min (intTrunc chh) ((imgHeight : ℤ) - cellY chh row)

/-! ## Configuration (`Config`, lines 18-46) -/

/-- The `Config` dataclass.  Floats are embedded as `ℚ`; the background
color string is embedded as the RGB triple PIL resolves it to. -/
structure Config where
  char_set : List Char
  char_width : ℕ
  font_size : ℕ
  random_size_range : ℚ × ℚ
  random_position_offset : ℚ
  enable_randomization : Bool
  brightness_multiplier : ℚ
  contrast_multiplier : ℚ
  bold_enabled : Bool
  bold_offset_range : Option (List ℤ)
  background_color : ℕ × ℕ × ℕ

/-- `Config.__post_init__` (lines 43-46): the only processing done at
configuration time.  It fills the default bold offsets and performs no
other check:

```python
if self.bold_offset_range is None:
    self.bold_offset_range = [-1, 0, 1]
```
-/
def postInit (c : Config) : Config :=
  match c.bold_offset_range with
  | none => { c with bold_offset_range := some [-1, 0, 1] }
  | some _ => c

/-! ## Font loading (`FontManager.load_fonts`, lines 100-130)

```python
num_sizes = 5
for i in range(num_sizes):
    multiplier = min_mult + (max_mult - min_mult) * (i / (num_sizes - 1))
    size = int(base_size * multiplier)
    fonts.append(ImageFont.truetype(font_path, size, **font_kwargs))
```

A loaded font is represented by its pixel size; the success path (a font
file exists and every `truetype` call succeeds) is embedded. -/
def loadFontSizes (base : ℕ) (sizeRange : ℚ × ℚ) : List ℕ :=
  (List.range 5).map fun i =>
    (intTrunc ((base : ℚ) *
      (sizeRange.1 + (sizeRange.2 - sizeRange.1) * ((i : ℚ) / 4)))).toNat

/-! ## Per-cell drawing plan (`ASCIIPhotoMask._draw_character`, lines 304-353)

The randomness a cell consumes — `random.randint` twice and a
`random.choice` index — is abstracted as a `Draws` record; a run of the
random generator is a family of such records, one per cell. -/

/-- Results of the random draws one cell makes. -/
structure Draws where
  offX : ℤ
  offY : ℤ
  fontIdx : ℕ

/-- What a cell contributes to the mask before rasterization: the selected
character, the paste position and the font size used to stamp it. -/
structure GlyphInstance where
  glyph : Option Char
  pasteX : ℤ
  pasteY : ℤ
  fontSize : ℕ
  deriving DecidableEq, Repr

/-- `_draw_character` up to the rasterizing `mask_draw.text` calls: sample
brightness, select the character, apply the (optional) random offset and
pick the font (`random.choice(fonts) if len(fonts) > 1 else fonts[0]`). -/
def drawCharacterPlan (cfg : Config) (img : Img) (fonts : List ℕ)
    (row col : ℕ) (cw chh : ℚ) (d : Draws) : GlyphInstance :=
  let x := cellX cw col
  let y := cellY chh row
  let w := regionW cw img.width col
  let h := regionH chh img.height row
  let brightness := getAverageBrightness img x y w.toNat h.toNat
  let glyph := brightnessToChar cfg.char_set brightness
  let baseX : ℤ := (col : ℤ) * cfg.font_size
  let baseY : ℤ := (row : ℤ) * cfg.font_size
  let pasteX := if cfg.enable_randomization then baseX + d.offX else baseX
  let pasteY := if cfg.enable_randomization then baseY + d.offY else baseY
  let fsize := if 1 < fonts.length then fonts.getD d.fontIdx 0 else fonts.headD 0
  ⟨glyph, pasteX, pasteY, fsize⟩

/-- The grid loop of `ASCIIPhotoMask.generate` (lines 245-286): grid
planning, font loading (`size_range` collapses to `(1.0, 1.0)` when
randomization is off, line 258), then one `_draw_character` per cell in
row-major order. -/
def generatePlan (cfg : Config) (img : Img) (ds : ℕ → ℕ → Draws) :
    List GlyphInstance :=
  let cw := cellWidth img.width cfg.char_width
  let ch := (charHeight img.width img.height cfg.char_width).toNat
  let chh := cellHeight img.width img.height cfg.char_width
  let sizeRange := if cfg.enable_randomization then cfg.random_size_range else (1, 1)
  let fonts := loadFontSizes cfg.font_size sizeRange
  (List.range ch).flatMap fun row =>
    (List.range cfg.char_width).map fun col =>
      drawCharacterPlan cfg img fonts row col cw chh (ds row col)

/-! ## Compositing (`Image.composite`, line 295)

Modelled from PIL's documented semantics of
`Image.composite(image1, image2, mask)`: per pixel and channel the result
blends `image1` (the enhanced source) over `image2` (the background) with
the mask as alpha, using the library's fixed-point multiply-divide by 255
(`MULDIV255`). -/

/-- PIL's exact fixed-point `(a * b) / 255`:
`tmp = a*b + 128; ((tmp >> 8) + tmp) >> 8`. -/
def muldiv255 (a b : ℕ) : ℕ :=
  let tmp := a * b + 128
  (tmp / 256 + tmp) / 256

/-- One channel of `Image.composite(src, bg, mask)` at a pixel whose mask
value is `m`: `blend = bg * (255 - m)/255 + src * m/255`. -/
def compositePixel (src bg m : ℕ) : ℕ :=
  muldiv255 bg (255 - m) + muldiv255 src m

/-! ## Glyph stamping (`_draw_character`, lines 347-353)

```python
if self.config.bold_enabled:
    for dx in self.config.bold_offset_range:
        for dy in self.config.bold_offset_range:
            mask_draw.text((paste_x + dx, paste_y + dy), char, font=font, fill=255)
else:
    mask_draw.text((paste_x, paste_y), char, font=font, fill=255)
```

A glyph's coverage — the set of mask pixels a single `text` call sets to
255 — is an abstract finite set of pixel offsets supplied by the font
backend; stamping translates it to the paste position, and `fill=255`
writes are unions. -/

/-- Translate a pixel set by a vector. -/
def translate (v : ℤ × ℤ) (s : Finset (ℤ × ℤ)) : Finset (ℤ × ℤ) :=
  s.image fun p => (p.1 + v.1, p.2 + v.2)

/-- Mask pixels covered by the single non-bold stamp at `pos`. -/
def stampCoverage (pos : ℤ × ℤ) (glyph : Finset (ℤ × ℤ)) : Finset (ℤ × ℤ) :=
  translate pos glyph

/-- Mask pixels covered by bold rendering: one stamp per offset pair
`(dx, dy)` drawn from `bold_offset_range`. -/
def boldCoverage (offs : List ℤ) (pos : ℤ × ℤ) (glyph : Finset (ℤ × ℤ)) :
    Finset (ℤ × ℤ) :=
  (offs.toFinset ×ˢ offs.toFinset).biUnion fun d =>
    stampCoverage (pos.1 + d.1, pos.2 + d.2) glyph

/-! ## Helper lemmas -/

lemma length_pos_of_ne_nil {cs : List Char} (h : cs ≠ []) : 1 ≤ cs.length :=
  List.length_pos.mpr h

lemma brightnessIndex_nonneg (n : ℕ) (b : ℚ) : 0 ≤ brightnessIndex n b :=
  le_max_left _ _

lemma brightnessIndex_le (n : ℕ) (hn : 1 ≤ n) (b : ℚ) :
    brightnessIndex n b ≤ (n : ℤ) - 1 := by
  have h0 : (0 : ℤ) ≤ (n : ℤ) - 1 := by omega
  exact max_le h0 (min_le_right _ _)

lemma brightnessIndex_toNat_lt {cs : List Char} (h : cs ≠ []) (b : ℚ) :
    (brightnessIndex cs.length b).toNat < cs.length := by
  have h1 := brightnessIndex_nonneg cs.length b
  have h2 := brightnessIndex_le cs.length (length_pos_of_ne_nil h) b
  omega

lemma brightnessToChar_eq_getElem {cs : List Char} (h : cs ≠ []) (b : ℚ) :
    brightnessToChar cs b
      = some (cs.get ⟨(brightnessIndex cs.length b).toNat, brightnessIndex_toNat_lt h b⟩) := by
  rw [brightnessToChar, List.getElem?_eq_getElem (brightnessIndex_toNat_lt h b)]
  rfl

lemma brightnessIndex_floor (n : ℕ) (hn : 1 ≤ n) {b : ℚ} (hb : 0 ≤ b) :
    brightnessIndex n b
      = max 0 (min ⌊b / 255 * ((n : ℚ) - 1)⌋ ((n : ℤ) - 1)) := by
  have h1 : (1 : ℚ) ≤ (((n : ℤ) : ℚ)) := by exact_mod_cast hn
  have hnn : (0 : ℚ) ≤ b / 255 * (((n : ℤ) : ℚ) - 1) := by
    apply mul_nonneg (by positivity)
    linarith
  rw [brightnessIndex, intTrunc_of_nonneg hnn]
  norm_cast

lemma brightnessIndex_mono (n : ℕ) (hn : 1 ≤ n) {b₁ b₂ : ℚ}
    (h0 : 0 ≤ b₁) (h : b₁ ≤ b₂) :
    brightnessIndex n b₁ ≤ brightnessIndex n b₂ := by
  rw [brightnessIndex_floor n hn h0, brightnessIndex_floor n hn (le_trans h0 h)]
  apply max_le_max le_rfl
  apply min_le_min _ le_rfl
  apply Int.floor_le_floor
  apply mul_le_mul_of_nonneg_right _ _
  · exact (div_le_div_iff_of_pos_right (by norm_num)).mpr h
  · have : (1 : ℚ) ≤ (n : ℚ) := by exact_mod_cast hn
    linarith

lemma brightnessIndex_zero (n : ℕ) (hn : 1 ≤ n) : brightnessIndex n 0 = 0 := by
  have h0 : (0 : ℤ) ≤ (n : ℤ) - 1 := by omega
  rw [brightnessIndex_floor n hn le_rfl]
  norm_num

lemma brightnessIndex_255 (n : ℕ) (hn : 1 ≤ n) : brightnessIndex n 255 = (n : ℤ) - 1 := by
  rw [brightnessIndex_floor n hn (by norm_num)]
  have : (255 : ℚ) / 255 * ((n : ℚ) - 1) = ((n : ℤ) - 1 : ℤ) := by push_cast; ring
  rw [this, Int.floor_intCast]
  omega


/-- Claim C2: for a non-empty ramp and luminance in [0, 255],
`brightness_to_char` computes the clamped index
`floor((L/255)*(N-1))`, monotone non-decreasing in the luminance,
equal to 0 at L = 0 and to N-1 at L = 255, and indexes the ramp there. -/
theorem glyphSelector_spec (cs : List Char) (hcs : cs ≠ []) :
    (∀ b : ℚ, 0 ≤ b → b ≤ 255 →
      brightnessIndex cs.length b
        = max 0 (min ⌊b / 255 * ((cs.length : ℚ) - 1)⌋ ((cs.length : ℤ) - 1)) ∧
      0 ≤ brightnessIndex cs.length b ∧
      brightnessIndex cs.length b ≤ (cs.length : ℤ) - 1 ∧
      (brightnessToChar cs b).isSome = true) ∧
    (∀ b₁ b₂ : ℚ, 0 ≤ b₁ → b₁ ≤ b₂ →
      brightnessIndex cs.length b₁ ≤ brightnessIndex cs.length b₂) ∧
    brightnessToChar cs 0 = cs[0]? ∧
    brightnessToChar cs 255 = cs[cs.length - 1]? := by
  have hn := length_pos_of_ne_nil hcs
  refine ⟨fun b hb _ => ⟨brightnessIndex_floor _ hn hb, brightnessIndex_nonneg _ b,
      brightnessIndex_le _ hn b, ?_⟩, fun b₁ b₂ h0 h => brightnessIndex_mono _ hn h0 h, ?_, ?_⟩
  · rw [brightnessToChar_eq_getElem hcs]
    rfl
  · rw [brightnessToChar, brightnessIndex_zero _ hn]
    rfl
  · rw [brightnessToChar, brightnessIndex_255 _ hn]
    congr 1
    omega

/-- Witness for C2 at the concrete ramp `['a', 'b', 'c']`. -/
theorem glyphSelector_spec_witness :
    ((['a', 'b', 'c'] : List Char) ≠ []) ∧
    ((∀ b : ℚ, 0 ≤ b → b ≤ 255 →
      brightnessIndex (['a', 'b', 'c'] : List Char).length b
        = max 0 (min ⌊b / 255 * (((['a', 'b', 'c'] : List Char).length : ℚ) - 1)⌋
            (((['a', 'b', 'c'] : List Char).length : ℤ) - 1)) ∧
      0 ≤ brightnessIndex (['a', 'b', 'c'] : List Char).length b ∧
      brightnessIndex (['a', 'b', 'c'] : List Char).length b
        ≤ ((['a', 'b', 'c'] : List Char).length : ℤ) - 1 ∧
      (brightnessToChar ['a', 'b', 'c'] b).isSome = true) ∧
    (∀ b₁ b₂ : ℚ, 0 ≤ b₁ → b₁ ≤ b₂ →
      brightnessIndex (['a', 'b', 'c'] : List Char).length b₁
        ≤ brightnessIndex (['a', 'b', 'c'] : List Char).length b₂) ∧
    brightnessToChar ['a', 'b', 'c'] 0 = (['a', 'b', 'c'] : List Char)[0]? ∧
    brightnessToChar ['a', 'b', 'c'] 255
      = (['a', 'b', 'c'] : List Char)[(['a', 'b', 'c'] : List Char).length - 1]?) :=
  ⟨by decide, glyphSelector_spec ['a', 'b', 'c'] (by decide)⟩


/-- Claim C10: for a non-empty ramp and any rational brightness, including
values below 0 and above 255, `brightness_to_char` totally evaluates: the
clamped index stays inside `[0, N-1]` and a character of the ramp is
returned. -/
theorem brightnessToChar_total (cs : List Char) (hcs : cs ≠ []) (b : ℚ) :
    0 ≤ brightnessIndex cs.length b ∧
    brightnessIndex cs.length b ≤ (cs.length : ℤ) - 1 ∧
    ∃ c, brightnessToChar cs b = some c ∧ c ∈ cs := by
  refine ⟨brightnessIndex_nonneg _ b, brightnessIndex_le _ (length_pos_of_ne_nil hcs) b, ?_⟩
  exact ⟨_, brightnessToChar_eq_getElem hcs b, List.get_mem _ _ _⟩

/-- Witness for C10 at ramp `['a']` and brightness -1000. -/
theorem brightnessToChar_total_witness :
    ((['a'] : List Char) ≠ []) ∧
    (0 ≤ brightnessIndex (['a'] : List Char).length (-1000) ∧
     brightnessIndex (['a'] : List Char).length (-1000) ≤ ((['a'] : List Char).length : ℤ) - 1 ∧
     ∃ c, brightnessToChar ['a'] (-1000) = some c ∧ c ∈ (['a'] : List Char)) :=
  ⟨by decide, brightnessToChar_total ['a'] (by decide) (-1000)⟩


lemma charHeight_eq_floor (W H Gw : ℕ) (hW : 1 ≤ W) (hGw : 1 ≤ Gw) :
    charHeight W H Gw = ⌊(H : ℚ) * Gw / W⌋ := by
  have hq : (H : ℚ) / cellWidth W Gw = (H : ℚ) * Gw / W := by
    rw [cellWidth, div_div_eq_mul_div]
  have hW0 : (0 : ℚ) < W := by exact_mod_cast hW
  have hnn : 0 ≤ (H : ℚ) / cellWidth W Gw := by rw [hq]; positivity
  rw [charHeight, intTrunc_of_nonneg hnn, hq]

lemma one_le_charHeight_iff (W H Gw : ℕ) (hW : 1 ≤ W) (hGw : 1 ≤ Gw) :
    1 ≤ charHeight W H Gw ↔ W ≤ H * Gw := by
  have hW0 : (0 : ℚ) < W := by exact_mod_cast hW
  rw [charHeight_eq_floor W H Gw hW hGw, Int.le_floor, Int.cast_one, le_div_iff₀ hW0,
    one_mul]
  exact_mod_cast Iff.rfl

/-- Claim C1 (amended): the grid planning step computes
`char_height = int(H / (W / Gw))`, the floor of `H*Gw/W` — truncation, not
round-to-nearest — and applies no minimum clamp: the grid height is at
least 1 exactly when `H*Gw >= W`. -/
theorem grid_height_floor_no_clamp (W H Gw : ℕ) (hW : 1 ≤ W) (hGw : 1 ≤ Gw) :
    charHeight W H Gw = ⌊(H : ℚ) * Gw / W⌋ ∧
    (1 ≤ charHeight W H Gw ↔ W ≤ H * Gw) :=
  ⟨charHeight_eq_floor W H Gw hW hGw, one_le_charHeight_iff W H Gw hW hGw⟩

/-- Witness for C1 at `W = 3, H = 5, Gw = 1`. -/
theorem grid_height_floor_no_clamp_witness :
    1 ≤ 3 ∧ 1 ≤ 1 ∧
    (charHeight 3 5 1 = ⌊(5 : ℚ) * 1 / 3⌋ ∧ (1 ≤ charHeight 3 5 1 ↔ 3 ≤ 5 * 1)) :=
  ⟨by norm_num, by norm_num, grid_height_floor_no_clamp 3 5 1 (by norm_num) (by norm_num)⟩

/-- Counterexample to C1 as stated: at `W = 3, H = 5, Gw = 1` the code's
grid height is 1 while round-to-nearest with a minimum clamp of 1 gives 2;
at `W = 3, H = 1, Gw = 1` the code's grid height is 0, violating
`grid_height >= 1`. -/
theorem grid_height_not_round_not_clamped :
    charHeight 3 5 1 = 1 ∧ max 1 (round ((5 : ℚ) / ((3 : ℚ) / (1 : ℚ)))) = 2 ∧
    charHeight 3 1 1 = 0 := by
  refine ⟨by norm_num [charHeight, cellWidth, intTrunc], ?_, by norm_num [charHeight, cellWidth, intTrunc]⟩
  rw [round_eq]
  norm_num

lemma gridCell_bounds (L n k : ℕ) (q : ℚ) (h1 : 1 ≤ q)
    (h2 : (n : ℚ) * q ≤ (L : ℚ)) (hk : k < n) :
    0 ≤ intTrunc ((k : ℚ) * q) ∧
    intTrunc ((k : ℚ) * q) + 1 ≤ (L : ℤ) ∧
    1 ≤ min (intTrunc q) ((L : ℤ) - intTrunc ((k : ℚ) * q)) := by
  have hq0 : (0 : ℚ) ≤ q := le_trans zero_le_one h1
  have hkq0 : (0 : ℚ) ≤ (k : ℚ) * q := by positivity
  rw [intTrunc_of_nonneg hkq0, intTrunc_of_nonneg hq0]
  have hkn : (k : ℚ) ≤ (n : ℚ) - 1 := by
    have : (k : ℚ) + 1 ≤ (n : ℚ) := by exact_mod_cast hk
    linarith
  have hkey : (k : ℚ) * q ≤ (L : ℚ) - 1 := by
    have h3 : (k : ℚ) * q ≤ ((n : ℚ) - 1) * q := mul_le_mul_of_nonneg_right hkn hq0
    have h4 : ((n : ℚ) - 1) * q = (n : ℚ) * q - q := by ring
    linarith
  have hfl : ⌊(k : ℚ) * q⌋ ≤ (L : ℤ) - 1 := by
    have h5 := Int.floor_le_floor hkey
    rw [show ((L : ℚ) - 1) = (((L : ℤ) - 1 : ℤ) : ℚ) by push_cast; ring,
      Int.floor_intCast] at h5
    exact h5
  have hfq : 1 ≤ ⌊q⌋ := Int.le_floor.mpr (by exact_mod_cast h1)
  have hf0 : 0 ≤ ⌊(k : ℚ) * q⌋ := Int.floor_nonneg.mpr hkq0
  exact ⟨hf0, by omega, le_min hfq (by omega)⟩

/-- Claim C5 (amended): when the grid width is at least 1, the image is at
least one cell wide (`Gw <= W`) and the grid has at least one row
(`W <= H * Gw`), every cell of the full grid samples a region inside
`[0, W) x [0, H)` of positive width and height — in particular the clipped
last-column cells are non-empty. -/
theorem cell_regions_safe (W H Gw : ℕ) (hGw : 1 ≤ Gw) (hWGw : Gw ≤ W)
    (hHG : W ≤ H * Gw) :
    1 ≤ charHeight W H Gw ∧
    (∀ col, col < Gw →
      0 ≤ cellX (cellWidth W Gw) col ∧
      1 ≤ regionW (cellWidth W Gw) W col ∧
      cellX (cellWidth W Gw) col + regionW (cellWidth W Gw) W col ≤ (W : ℤ)) ∧
    (∀ row, row < (charHeight W H Gw).toNat →
      0 ≤ cellY (cellHeight W H Gw) row ∧
      1 ≤ regionH (cellHeight W H Gw) H row ∧
      cellY (cellHeight W H Gw) row + regionH (cellHeight W H Gw) H row ≤ (H : ℤ)) := by
  have hW : 1 ≤ W := le_trans hGw hWGw
  have hW0 : (0 : ℚ) < W := by exact_mod_cast hW
  have hGw0 : (0 : ℚ) < Gw := by exact_mod_cast hGw
  have hch1 : 1 ≤ charHeight W H Gw := (one_le_charHeight_iff W H Gw hW hGw).mpr hHG
  have hcw1 : 1 ≤ cellWidth W Gw := by
    rw [cellWidth, le_div_iff₀ hGw0, one_mul]
    exact_mod_cast hWGw
  have hcwL : (Gw : ℚ) * cellWidth W Gw ≤ (W : ℚ) := by
    rw [cellWidth, mul_div_cancel₀ _ (ne_of_gt hGw0)]
  have hH0 : (0 : ℚ) ≤ (H : ℚ) := by positivity
  have hchH : charHeight W H Gw ≤ (H : ℤ) := by
    have hnn : 0 ≤ (H : ℚ) / cellWidth W Gw := by positivity
    rw [charHeight, intTrunc_of_nonneg hnn]
    have h6 := Int.floor_le_floor (div_le_self hH0 hcw1)
    rwa [Int.floor_natCast] at h6
  have hchQ : (0 : ℚ) < ((charHeight W H Gw : ℤ) : ℚ) := by exact_mod_cast hch1
  have hchh1 : 1 ≤ cellHeight W H Gw := by
    rw [cellHeight, le_div_iff₀ hchQ, one_mul]
    exact_mod_cast hchH
  have hchhL : ((charHeight W H Gw).toNat : ℚ) * cellHeight W H Gw ≤ (H : ℚ) := by
    have htn : ((charHeight W H Gw).toNat : ℤ) = charHeight W H Gw :=
      Int.toNat_of_nonneg (by omega)
    have htnQ : (((charHeight W H Gw).toNat : ℕ) : ℚ) = ((charHeight W H Gw : ℤ) : ℚ) := by
      exact_mod_cast htn
    rw [htnQ, cellHeight, mul_div_cancel₀ _ (ne_of_gt hchQ)]
  refine ⟨hch1, fun col hcol => ?_, fun row hrow => ?_⟩
  · obtain ⟨h0, hL, hmin⟩ := gridCell_bounds W Gw col (cellWidth W Gw) hcw1 hcwL hcol
    have hmr := min_le_right (intTrunc (cellWidth W Gw))
      ((W : ℤ) - intTrunc ((col : ℚ) * cellWidth W Gw))
    exact ⟨h0, hmin, by rw [regionW, cellX] at *; omega⟩
  · obtain ⟨h0, hL, hmin⟩ := gridCell_bounds H (charHeight W H Gw).toNat row
      (cellHeight W H Gw) hchh1 hchhL hrow
    have hmr := min_le_right (intTrunc (cellHeight W H Gw))
      ((H : ℤ) - intTrunc ((row : ℚ) * cellHeight W H Gw))
    exact ⟨h0, hmin, by rw [regionH, cellY] at *; omega⟩

/-- Witness for C5 at `W = 10, H = 7, Gw = 4` (10 not divisible by 4). -/
theorem cell_regions_safe_witness :
    (1 ≤ 4 ∧ 4 ≤ 10 ∧ 10 ≤ 7 * 4) ∧
    (1 ≤ charHeight 10 7 4 ∧
    (∀ col, col < 4 →
      0 ≤ cellX (cellWidth 10 4) col ∧
      1 ≤ regionW (cellWidth 10 4) 10 col ∧
      cellX (cellWidth 10 4) col + regionW (cellWidth 10 4) 10 col ≤ (10 : ℤ)) ∧
    (∀ row, row < (charHeight 10 7 4).toNat →
      0 ≤ cellY (cellHeight 10 7 4) row ∧
      1 ≤ regionH (cellHeight 10 7 4) 7 row ∧
      cellY (cellHeight 10 7 4) row + regionH (cellHeight 10 7 4) 7 row ≤ (7 : ℤ))) :=
  ⟨by norm_num, cell_regions_safe 10 7 4 (by norm_num) (by norm_num) (by norm_num)⟩

/-- Counterexample to C5 as stated: for `W = 5, H = 5, Gw = 10` (width not
divisible by the grid width) the grid is 10×10 yet the last-column cell
(col 9) samples a zero-width — empty — region. -/
theorem lastColumn_zero_area :
    (5 : ℕ) % 10 ≠ 0 ∧ charHeight 5 5 10 = 10 ∧ regionW (cellWidth 5 10) 5 9 = 0 := by
  refine ⟨by norm_num, by norm_num [charHeight, cellWidth, intTrunc], ?_⟩
  norm_num [regionW, cellX, cellWidth, intTrunc]

lemma grayPix_le_255 {r g b : ℕ} (hr : r ≤ 255) (hg : g ≤ 255) (hb : b ≤ 255) :
    grayPix r g b ≤ 255 := by
  have h : r * 19595 + g * 38470 + b * 7471 + 32768 ≤ 16744448 := by omega
  calc grayPix r g b ≤ 16744448 / 65536 := Nat.div_le_div_right h
    _ = 255 := by norm_num

lemma cropGray_le_255 (img : Img)
    (hpix : ∀ i j, (img.pix i j).1 ≤ 255 ∧ (img.pix i j).2.1 ≤ 255 ∧
      (img.pix i j).2.2 ≤ 255) (x y : ℤ) :
    cropGray img x y ≤ 255 := by
  rw [cropGray]
  split
  · exact grayPix_le_255 (hpix _ _).1 (hpix _ _).2.1 (hpix _ _).2.2
  · omega

lemma regionSum_le (img : Img)
    (hpix : ∀ i j, (img.pix i j).1 ≤ 255 ∧ (img.pix i j).2.1 ≤ 255 ∧
      (img.pix i j).2.2 ≤ 255) (x y : ℤ) (w h : ℕ) :
    regionSum img x y w h ≤ 255 * (w * h) := by
  calc regionSum img x y w h
      ≤ ∑ _j ∈ Finset.range h, ∑ _i ∈ Finset.range w, 255 :=
        Finset.sum_le_sum fun j _ => Finset.sum_le_sum fun i _ =>
          cropGray_le_255 img hpix _ _
    _ = 255 * (w * h) := by
        simp [Finset.sum_const, Finset.card_range]
        ring

/-- Claim C7: `get_average_brightness` returns the arithmetic mean of the
region's grayscale pixel values, a scalar in [0, 255], and returns 0 for a
zero-area region instead of dividing by zero. -/
theorem average_brightness_bounds (img : Img) (x y : ℤ) (w h : ℕ)
    (hpix : ∀ i j, (img.pix i j).1 ≤ 255 ∧ (img.pix i j).2.1 ≤ 255 ∧
      (img.pix i j).2.2 ≤ 255) :
    0 ≤ getAverageBrightness img x y w h ∧
    getAverageBrightness img x y w h ≤ 255 ∧
    (w * h = 0 → getAverageBrightness img x y w h = 0) ∧
    (0 < w * h →
      getAverageBrightness img x y w h
        = (regionSum img x y w h : ℚ) / ((w : ℚ) * h)) := by
  rw [getAverageBrightness]
  split_ifs with hwh
  · have hpos : (0 : ℚ) < (w : ℚ) * h := by exact_mod_cast hwh
    refine ⟨by positivity, ?_, by omega, fun _ => rfl⟩
    rw [div_le_iff₀ hpos]
    have h2 : (regionSum img x y w h : ℚ) ≤ 255 * ((w : ℚ) * h) := by
      exact_mod_cast regionSum_le img hpix x y w h
    linarith
  · exact ⟨le_rfl, by norm_num, fun _ => rfl, fun hc => absurd hc hwh⟩

/-- Witness for C7 on a 2×2 image of constant color (10, 20, 30) and the
partially out-of-bounds region `(0, 0, 3, 1)`. -/
theorem average_brightness_bounds_witness :
    (∀ i j, ((⟨2, 2, fun _ _ => (10, 20, 30)⟩ : Img).pix i j).1 ≤ 255 ∧
      ((⟨2, 2, fun _ _ => (10, 20, 30)⟩ : Img).pix i j).2.1 ≤ 255 ∧
      ((⟨2, 2, fun _ _ => (10, 20, 30)⟩ : Img).pix i j).2.2 ≤ 255) ∧
    (0 ≤ getAverageBrightness ⟨2, 2, fun _ _ => (10, 20, 30)⟩ 0 0 3 1 ∧
     getAverageBrightness ⟨2, 2, fun _ _ => (10, 20, 30)⟩ 0 0 3 1 ≤ 255 ∧
     ((3 : ℕ) * 1 = 0 → getAverageBrightness ⟨2, 2, fun _ _ => (10, 20, 30)⟩ 0 0 3 1 = 0) ∧
     (0 < (3 : ℕ) * 1 →
       getAverageBrightness ⟨2, 2, fun _ _ => (10, 20, 30)⟩ 0 0 3 1
         = (regionSum ⟨2, 2, fun _ _ => (10, 20, 30)⟩ 0 0 3 1 : ℚ) / ((3 : ℚ) * 1))) :=
  ⟨fun _ _ => ⟨by norm_num, by norm_num, by norm_num⟩,
    average_brightness_bounds _ 0 0 3 1 (fun _ _ => ⟨by norm_num, by norm_num, by norm_num⟩)⟩

lemma muldiv255_zero (a : ℕ) : muldiv255 a 0 = 0 := by
  simp [muldiv255]

set_option maxRecDepth 4000 in
lemma muldiv255_fin255 : ∀ x : Fin 256, muldiv255 x.val 255 = x.val := by decide

lemma muldiv255_255 {x : ℕ} (hx : x ≤ 255) : muldiv255 x 255 = x :=
  muldiv255_fin255 ⟨x, by omega⟩

/-- Claim C3: with every mask value either 0 or 255 — as the claim itself
requires of the stamped mask — `Image.composite` degenerates to per-pixel
binary selection: the enhanced-source pixel where the mask exceeds the
threshold 0, the background pixel elsewhere, with no partial blending. -/
theorem composite_binary_selects (src bg m : ℕ) (hs : src ≤ 255) (hb : bg ≤ 255)
    (hm : m = 0 ∨ m = 255) :
    compositePixel src bg m = if 0 < m then src else bg := by
  rcases hm with rfl | rfl
  · simp [compositePixel, muldiv255_zero, muldiv255_255 hb]
  · simp [compositePixel, muldiv255_zero, muldiv255_255 hs]

/-- Witness for C3 at source value 200, background 7, mask 255. -/
theorem composite_binary_selects_witness :
    ((200 : ℕ) ≤ 255 ∧ (7 : ℕ) ≤ 255 ∧ ((255 : ℕ) = 0 ∨ (255 : ℕ) = 255)) ∧
    compositePixel 200 7 255 = if 0 < (255 : ℕ) then 200 else 7 :=
  ⟨⟨by norm_num, by norm_num, Or.inr rfl⟩,
    composite_binary_selects 200 7 255 (by norm_num) (by norm_num) (Or.inr rfl)⟩

lemma loadFontSizes_one (base : ℕ) :
    loadFontSizes base (1, 1) = List.replicate 5 base := by
  simp [loadFontSizes, intTrunc, List.range_succ, Int.floor_natCast]

lemma getD_replicate_five (base k : ℕ) (hk : k < 5) :
    (List.replicate 5 base).getD k 0 = base := by
  interval_cases k <;> rfl

lemma getElem?_replicate_five (base k : ℕ) (hk : k < 5) :
    ([base, base, base, base, base] : List ℕ)[k]?.getD 0 = base := by
  interval_cases k <;> rfl

lemma drawCharacterPlan_no_rand (cfg : Config) (img : Img) (base : ℕ)
    (row col : ℕ) (cw chh : ℚ) (d₁ d₂ : Draws)
    (hrand : cfg.enable_randomization = false)
    (hd₁ : d₁.fontIdx < 5) (hd₂ : d₂.fontIdx < 5) :
    drawCharacterPlan cfg img (List.replicate 5 base) row col cw chh d₁
      = drawCharacterPlan cfg img (List.replicate 5 base) row col cw chh d₂ := by
  simp [drawCharacterPlan, hrand]
  rw [getElem?_replicate_five base _ hd₁, getElem?_replicate_five base _ hd₂]

/-- Claim C4: with randomization disabled, the per-cell glyph instances of a
whole run — selected character, paste position and font size, in row-major
order — do not depend on the state of the random generator (the font pick
`random.choice` still fires, but all five loaded fonts have the base size),
so two runs on identical input and config produce identical output. -/
theorem generate_deterministic (cfg : Config) (img : Img) (ds₁ ds₂ : ℕ → ℕ → Draws)
    (hrand : cfg.enable_randomization = false)
    (h₁ : ∀ r c, (ds₁ r c).fontIdx < 5) (h₂ : ∀ r c, (ds₂ r c).fontIdx < 5) :
    generatePlan cfg img ds₁ = generatePlan cfg img ds₂ := by
  simp only [generatePlan, hrand, Bool.false_eq_true, if_false, loadFontSizes_one]
  congr 1
  funext row
  congr 1
  funext col
  exact drawCharacterPlan_no_rand cfg img cfg.font_size row col _ _ _ _ hrand
    (h₁ row col) (h₂ row col)

/-- Fixtures for the C4 witness: a no-randomization config, a 2×2 gray
image and two unequal draw families. -/
def cfgNR : Config :=
  { char_set := ['#', '.', ' ']
    char_width := 1
    font_size := 2
    random_size_range := (3/5, 7/5)
    random_position_offset := 3/20
    enable_randomization := false
    brightness_multiplier := 9/5
    contrast_multiplier := 13/10
    bold_enabled := true
    bold_offset_range := some [-1, 0, 1]
    background_color := (0, 0, 0) }

/-- 2×2 mid-gray source image for the C4 witness. -/
def imgNR : Img := ⟨2, 2, fun _ _ => (100, 100, 100)⟩

/-- First draw family for the C4 witness. -/
def dsA : ℕ → ℕ → Draws := fun _ _ => ⟨0, 0, 0⟩

/-- Second, different draw family for the C4 witness. -/
def dsB : ℕ → ℕ → Draws := fun _ _ => ⟨1, -1, 3⟩

/-- Witness for C4 at `cfgNR`, `imgNR` and the two draw families. -/
theorem generate_deterministic_witness :
    (cfgNR.enable_randomization = false) ∧
    (∀ r c, (dsA r c).fontIdx < 5) ∧ (∀ r c, (dsB r c).fontIdx < 5) ∧
    generatePlan cfgNR imgNR dsA = generatePlan cfgNR imgNR dsB :=
  ⟨rfl, fun _ _ => show 0 < 5 by decide, fun _ _ => show 3 < 5 by decide,
    generate_deterministic cfgNR imgNR dsA dsB rfl
      (fun _ _ => show 0 < 5 by decide) (fun _ _ => show 3 < 5 by decide)⟩

/-- Claim C8: the glyph character selected for each grid cell is a function
of the source image and configuration only: whatever values the random
draws take (any two draw families, i.e. any two seeds), the per-cell
characters of the run coincide — randomness reaches only placement offsets
and the font-size pick. -/
theorem glyph_choice_independent (cfg : Config) (img : Img)
    (ds₁ ds₂ : ℕ → ℕ → Draws) :
    (generatePlan cfg img ds₁).map GlyphInstance.glyph
      = (generatePlan cfg img ds₂).map GlyphInstance.glyph := by
  simp only [generatePlan, List.map_flatMap, List.map_map]
  congr 1

/-- A configuration whose glyph ramp is empty. -/
def emptyRampConfig : Config :=
  { char_set := []
    char_width := 80
    font_size := 25
    random_size_range := (3/5, 7/5)
    random_position_offset := 3/20
    enable_randomization := true
    brightness_multiplier := 9/5
    contrast_multiplier := 13/10
    bold_enabled := true
    bold_offset_range := none
    background_color := (0, 0, 0) }

/-- Counterexample to C6 as stated: configuration construction
(`__post_init__`, the only config-time processing) accepts the empty ramp
and completes normally — no `EmptyGlyphRamp` error exists — and the failure
surfaces only in `brightness_to_char`, as an out-of-range index. -/
theorem emptyRamp_not_rejected :
    (postInit emptyRampConfig).char_set = [] ∧
    (postInit emptyRampConfig).bold_offset_range = some [-1, 0, 1] ∧
    brightnessToChar (postInit emptyRampConfig).char_set 128 = none :=
  ⟨rfl, rfl, rfl⟩

/-- Claim C6 (amended): an empty `char_set` passes configuration time
unrejected (`__post_init__` validates nothing and preserves the ramp);
the pipeline instead fails at the first glyph selection during cell
rendering, where indexing the empty ramp raises. -/
theorem emptyRamp_fails_at_selection (c : Config) (h : c.char_set = []) (b : ℚ) :
    (postInit c).char_set = c.char_set ∧
    brightnessToChar (postInit c).char_set b = none := by
  have hpres : (postInit c).char_set = c.char_set := by
    cases hrec : c.bold_offset_range <;> simp [postInit, hrec]
  refine ⟨hpres, ?_⟩
  rw [hpres, h]
  rfl

/-- Witness for C6 (amended) at `emptyRampConfig` and brightness 128. -/
theorem emptyRamp_fails_at_selection_witness :
    (emptyRampConfig.char_set = []) ∧
    ((postInit emptyRampConfig).char_set = emptyRampConfig.char_set ∧
     brightnessToChar (postInit emptyRampConfig).char_set 128 = none) :=
  ⟨rfl, emptyRamp_fails_at_selection emptyRampConfig rfl 128⟩

/-- Claim C9 (amended): for the default offset set `[-1, 0, 1]` and any
glyph with non-empty coverage, the non-bold stamp covers a strict subset of
the bold coverage at the same position. -/
theorem nonbold_ssubset_bold (pos : ℤ × ℤ) (glyph : Finset (ℤ × ℤ))
    (hne : glyph.Nonempty) :
    stampCoverage pos glyph ⊂ boldCoverage [-1, 0, 1] pos glyph := by
  have himg : (glyph.image Prod.fst).Nonempty := hne.image _
  obtain ⟨a, ha, hafst⟩ :=
    Finset.mem_image.mp ((glyph.image Prod.fst).min'_mem himg)
  have hsub : stampCoverage pos glyph ⊆ boldCoverage [-1, 0, 1] pos glyph := by
    intro q hq
    apply Finset.mem_biUnion.mpr
    refine ⟨(0, 0), by simp [Finset.mem_product], ?_⟩
    simpa [stampCoverage] using hq
  rw [Finset.ssubset_iff_of_subset hsub]
  refine ⟨(pos.1 + a.1 - 1, pos.2 + a.2), ?_, ?_⟩
  · apply Finset.mem_biUnion.mpr
    refine ⟨(-1, 0), by simp [Finset.mem_product], ?_⟩
    rw [stampCoverage, translate, Finset.mem_image]
    refine ⟨a, ha, ?_⟩
    simp only [Prod.ext_iff]
    constructor <;> ring
  · intro hcon
    rw [stampCoverage, translate, Finset.mem_image] at hcon
    obtain ⟨b, hb, heq⟩ := hcon
    have hb1 : b.1 + pos.1 = pos.1 + a.1 - 1 := congrArg Prod.fst heq
    have hble : (glyph.image Prod.fst).min' himg ≤ b.1 :=
      Finset.min'_le _ _ (Finset.mem_image_of_mem _ hb)
    omega

/-- Witness for C9 (amended): one-pixel glyph at position (10, 20). -/
theorem nonbold_ssubset_bold_witness :
    ({((0 : ℤ), (0 : ℤ))} : Finset (ℤ × ℤ)).Nonempty ∧
    stampCoverage (10, 20) {((0 : ℤ), (0 : ℤ))}
      ⊂ boldCoverage [-1, 0, 1] (10, 20) {((0 : ℤ), (0 : ℤ))} :=
  ⟨⟨(0, 0), Finset.mem_singleton_self _⟩,
    nonbold_ssubset_bold (10, 20) _ ⟨(0, 0), Finset.mem_singleton_self _⟩⟩

/-- Counterexample to C9 as stated: for a glyph with empty coverage (such
as the space character, present in the default ramp) non-bold and bold
rendering cover the same — empty — pixel set, so the subset is not strict. -/
theorem nonbold_bold_equal_on_empty_glyph :
    ¬ stampCoverage (0, 0) (∅ : Finset (ℤ × ℤ))
        ⊂ boldCoverage [-1, 0, 1] (0, 0) ∅ := by
  simp [stampCoverage, boldCoverage, translate]

end AsciiArt

